import Mathlib

-- Verification development for the parallel HTTP range downloader (src/main.rs).
-- Bytes are modelled as natural numbers.  The streaming SHA-256 accumulator is
-- modelled by the exact list of bytes fed to it via update(): the final digest
-- is a pure function of that list, so equality of fed byte streams entails
-- equality of digests.

-- ## Reassembly buffer
-- BTreeMap<usize, Vec<u8>> is modelled as an association list with strictly
-- increasing keys; `first_key_value` is the head, `remove` of the first key is
-- the tail.

abbrev Chunk := List Nat

abbrev Buffer := List (Nat × Chunk)

/-- BTreeMap::insert — ordered insertion that replaces an existing entry
carrying the same key. -/
def insertB (o : Nat) (b : Chunk) : Buffer → Buffer
  | [] => [(o, b)]
  | (k, v) :: rest =>
    if o < k then (o, b) :: (k, v) :: rest
    else if o = k then (o, b) :: rest
    else (k, v) :: insertB o b rest

/-- The BTreeMap ordering invariant: keys strictly increase along the list. -/
def sortedB (buf : Buffer) : Prop := List.Pairwise (fun p q => p.1 < q.1) buf

instance (buf : Buffer) : Decidable (sortedB buf) := by
  unfold sortedB; infer_instance

/-- The two io::ErrorKind::InvalidData errors produced by process_chunks,
distinguished by their messages ("Chunk exceeds total size" /
"Hashed bytes exceed total size"). -/
inductive MergeErr where
  | chunkExceedsTotal
  | hashedExceedsTotal
  deriving DecidableEq, Repr

-- ## process_chunks (src/main.rs lines 149-185)
-- The Rust function mutates `hasher`, `bytes_hashed` and `chunk_buffer` in
-- place and returns io::Result<()>; we pass the state explicitly and return
-- the result together with the state as left behind by the call (on Err the
-- mutations made before the error persist, exactly as with &mut references).

/-- The `loop` inside process_chunks: inspect the smallest-offset entry,
discard it if its offset is below the watermark, merge it into the hash if it
sits exactly at the watermark (failing when it would overrun total_size), and
stop at the first gap. -/
def pcLoop (h : List Nat) (w : Nat) (buf : Buffer) (S : Nat) :
    Except MergeErr Unit × List Nat × Nat × Buffer :=
  match buf with
  | [] => (.ok (), h, w, [])
  | (o, b) :: rest =>
    if o < w then pcLoop h w rest S
    else if o = w then
      if w + b.length > S then (.error .chunkExceedsTotal, h, w, (o, b) :: rest)
      else pcLoop (h ++ b) (w + b.length) rest S
    else (.ok (), h, w, (o, b) :: rest)

/-- process_chunks: run the merge loop, then the defensive post-check
`bytes_hashed > total_size`. -/
def process_chunks (h : List Nat) (w : Nat) (buf : Buffer) (S : Nat) :
    Except MergeErr Unit × List Nat × Nat × Buffer :=
  match pcLoop h w buf S with
  | (.error e, h', w', buf') => (.error e, h', w', buf')
  | (.ok _, h', w', buf') =>
    if w' > S then (.error .hashedExceedsTotal, h', w', buf') else (.ok (), h', w', buf')

-- ## Tilings
-- `tilesB w cs S = true` says the chunk list `cs` is sorted by offset and
-- partitions the byte interval [w, S) without gap or overlap, each chunk
-- nonempty (a set of non-overlapping, gap-free chunks exactly covering the
-- interval, listed in ascending offset order).

def tilesB : Nat → List (Nat × Chunk) → Nat → Bool
  | o, [], S => o == S
  | o, (o', b) :: rest, S => o' == o && !b.isEmpty && tilesB (o + b.length) rest S

-- ## Insert/drain operation sequences (for the order-independence claim)
-- `some (o, b)` inserts a chunk into the buffer (as a worker thread does under
-- the lock); `none` runs process_chunks (an incremental drain).  This models
-- any interleaving of insertions and merge passes.

def runOps (S : Nat) : List (Option (Nat × Chunk)) → List Nat → Nat → Buffer →
    Except MergeErr Unit × List Nat × Nat × Buffer
  | [], h, w, buf => (.ok (), h, w, buf)
  | some (o, b) :: rest, h, w, buf => runOps S rest h w (insertB o b buf)
  | none :: rest, h, w, buf =>
    match process_chunks h w buf S with
    | (.ok _, h', w', buf') => runOps S rest h' w' buf'
    | (.error e, h', w', buf') => (.error e, h', w', buf')

/-- Execute an operation sequence starting from the empty buffer and a fresh
hash, then drain once more at the end (as the fallback completer does). -/
def runAndDrain (S : Nat) (ops : List (Option (Nat × Chunk))) :
    Except MergeErr Unit × List Nat × Nat × Buffer :=
  match runOps S ops [] 0 [] with
  | (.error e, h, w, buf) => (.error e, h, w, buf)
  | (.ok _, h, w, buf) => process_chunks h w buf S

-- ## Claims C5, C6, C7 — per-step behaviour of the merge algorithm

/-- C5: when process_chunks inspects the smallest-offset entry and its offset
equals the watermark but watermark + len(bytes) exceeds total_size, it fails
with the Overrun integrity error ("Chunk exceeds total size") and leaves the
hash state, the watermark and the buffer exactly as they were; in particular a
2-byte chunk at offset S-1 with watermark S-1 fails this way. -/
theorem C5_overrun_error (h : List Nat) (w : Nat) (b : Chunk) (rest : Buffer) (S : Nat)
    (hover : w + b.length > S) :
    process_chunks h w ((w, b) :: rest) S =
      (.error .chunkExceedsTotal, h, w, (w, b) :: rest) := by
  simp [process_chunks, pcLoop, hover]

/-- Witness for C5 at the claim's own instance: S = 5, watermark = S-1 = 4,
and a 2-byte chunk at offset 4, which would occupy [4, 6) and exceed S. -/
theorem C5_overrun_error_witness :
    4 + ([9, 9] : Chunk).length > 5 ∧
    process_chunks [] 4 [(4, [9, 9])] 5 =
      (.error .chunkExceedsTotal, [], 4, [(4, [9, 9])]) :=
  ⟨by decide, C5_overrun_error [] 4 [9, 9] [] 5 (by decide)⟩

/-- C6: an entry whose offset lies strictly below the watermark is removed
without its bytes being examined and without the watermark or hash changing
(the call behaves as if the entry were absent); consequently merging the
chunk {0: A} and then inserting {0: A} again and merging reproduces exactly
the state reached by merging it once. -/
theorem C6_discard_idempotent (h : List Nat) (w o : Nat) (b A : Chunk) (rest : Buffer)
    (S : Nat) (hlt : o < w) (hA : A ≠ []) (hAS : A.length ≤ S) :
    process_chunks h w ((o, b) :: rest) S = process_chunks h w rest S ∧
    process_chunks [] 0 (insertB 0 A []) S = (.ok (), A, A.length, []) ∧
    process_chunks A A.length (insertB 0 A []) S = (.ok (), A, A.length, []) := by
  refine ⟨by simp [process_chunks, pcLoop, hlt], ?_, ?_⟩
  · have hns : ¬ A.length > S := by omega
    simp [process_chunks, pcLoop, insertB, hns]
  · have hpos : 0 < A.length := List.length_pos.mpr hA
    have hns : ¬ A.length > S := by omega
    simp [process_chunks, pcLoop, insertB, hpos, hns]

/-- Witness for C6: discard of a stale entry at offset 0 with watermark 1, and
the merge-insert-merge-again scenario for A = [3, 4] with S = 5. -/
theorem C6_discard_idempotent_witness :
    (0 : Nat) < 1 ∧ ([3, 4] : Chunk) ≠ [] ∧ ([3, 4] : Chunk).length ≤ 5 ∧
    process_chunks [] 1 [(0, [5])] 5 = process_chunks [] 1 [] 5 ∧
    process_chunks [] 0 (insertB 0 [3, 4] []) 5 = (.ok (), [3, 4], 2, []) ∧
    process_chunks [3, 4] 2 (insertB 0 [3, 4] []) 5 = (.ok (), [3, 4], 2, []) :=
  ⟨by decide, by decide, by decide,
   (C6_discard_idempotent [] 1 0 [5] [3, 4] [] 5 (by decide) (by decide) (by decide)).1,
   (C6_discard_idempotent [] 1 0 [5] [3, 4] [] 5 (by decide) (by decide) (by decide)).2.1,
   (C6_discard_idempotent [] 1 0 [5] [3, 4] [] 5 (by decide) (by decide) (by decide)).2.2⟩

/-- C7: when the smallest-offset entry lies strictly beyond the watermark
(a gap), process_chunks stops without error and leaves hash, watermark and
every buffer entry unchanged; and once the missing chunk bm is inserted at the
watermark, a subsequent call merges it and then continues exactly as a merge
pass over the remaining entries would, whatever unrelated later offsets are
already present. -/
theorem C7_gap_halt_resume (h : List Nat) (w o : Nat) (b bm : Chunk) (rest : Buffer)
    (S : Nat) (hgap : w < o) (hwS : w ≤ S) (hfit : w + bm.length ≤ S) :
    process_chunks h w ((o, b) :: rest) S = (.ok (), h, w, (o, b) :: rest) ∧
    process_chunks h w (insertB w bm ((o, b) :: rest)) S =
      process_chunks (h ++ bm) (w + bm.length) ((o, b) :: rest) S := by
  constructor
  · have h1 : ¬ o < w := by omega
    have h2 : o ≠ w := by omega
    have h3 : ¬ w > S := by omega
    simp [process_chunks, pcLoop, h1, h2, h3]
  · have h4 : ¬ w + bm.length > S := by omega
    simp [process_chunks, pcLoop, insertB, hgap, h4]

/-- Witness for C7: gap at offset 3 with watermark 1, then the missing 2-byte
chunk [7, 8] is inserted at offset 1 and merging resumes. -/
theorem C7_gap_halt_resume_witness :
    (1 : Nat) < 3 ∧ (1 : Nat) ≤ 5 ∧ 1 + ([7, 8] : Chunk).length ≤ 5 ∧
    process_chunks [] 1 [(3, [9])] 5 = (.ok (), [], 1, [(3, [9])]) ∧
    process_chunks [] 1 (insertB 1 [7, 8] [(3, [9])]) 5 =
      process_chunks ([] ++ [7, 8]) (1 + ([7, 8] : Chunk).length) [(3, [9])] 5 :=
  ⟨by decide, by decide, by decide,
   (C7_gap_halt_resume [] 1 3 [9] [7, 8] [] 5 (by decide) (by decide) (by decide)).1,
   (C7_gap_halt_resume [] 1 3 [9] [7, 8] [] 5 (by decide) (by decide) (by decide)).2⟩

-- ## Partitioning in main (src/main.rs lines 44-52)

/-- `let chunk_size = (total_size + num_threads - 1) / num_threads` —
ceiling division for num_threads >= 1. -/
def chunk_size (S N : Nat) : Nat := (S + N - 1) / N

/-- The end offset computed for worker i:
`if i == num_threads - 1 { total_size - 1 } else { (i + 1) * chunk_size - 1 }`. -/
def workerEnd (S N i : Nat) : Nat :=
  if i = N - 1 then S - 1 else (i + 1) * chunk_size S N - 1

/-- The `for i in 0..num_threads` spawn loop of main with its `break` on
`start >= total_size`; the first argument counts the remaining loop
iterations (r = N - i). -/
def partitionAux (S N : Nat) : Nat → Nat → List (Nat × Nat)
  | 0, _ => []
  | r + 1, i =>
    let start := i * chunk_size S N
    if S ≤ start then []
    else (start, workerEnd S N i) :: partitionAux S N r (i + 1)

/-- The list of (start, end) ranges main actually spawns workers for. -/
def partition (S N : Nat) : List (Nat × Nat) := partitionAux S N N 0

/-- Modelled from the spec's partition rule, for the refinement comparison:
worker i owns [i*chunkSize, min((i+1)*chunkSize - 1, S-1)]; workers whose
start offset is >= S are not created. -/
def partitionSpec (S N : Nat) : List (Nat × Nat) :=
  ((List.range N).filter (fun i => i * chunk_size S N < S)).map
    (fun i => (i * chunk_size S N, min ((i + 1) * chunk_size S N - 1) (S - 1)))

/-- The code's partition expressed without the loop break: filter the worker
indices whose start offset is below S, each with the end offset the code
computes (no clamping to S-1 for non-final workers). -/
def partitionExpected (S N : Nat) : List (Nat × Nat) :=
  ((List.range N).filter (fun i => i * chunk_size S N < S)).map
    (fun i => (i * chunk_size S N, workerEnd S N i))

theorem partitionAux_eq_filter (S N : Nat) :
    ∀ r i, partitionAux S N r i =
      ((List.range' i r).filter (fun j => j * chunk_size S N < S)).map
        (fun j => (j * chunk_size S N, workerEnd S N j)) := by
  intro r
  induction r with
  | zero => intro i; simp [partitionAux]
  | succ r ih =>
    intro i
    rw [List.range'_succ]
    by_cases hs : S ≤ i * chunk_size S N
    · have hnone : ∀ j ∈ List.range' (i + 1) r, ¬ j * chunk_size S N < S := by
        intro j hj
        have hij : i ≤ j := by
          have := (List.mem_range'_1.mp hj).1
          omega
        have : i * chunk_size S N ≤ j * chunk_size S N :=
          Nat.mul_le_mul_right _ hij
        omega
      have hfe : (List.range' (i + 1) r).filter (fun j => j * chunk_size S N < S) = [] := by
        rw [List.filter_eq_nil_iff]
        intro j hj
        simpa using hnone j hj
      simp [partitionAux, hs, hfe]
    · push_neg at hs
      simp only [partitionAux, List.filter_cons]
      have : ¬ S ≤ i * chunk_size S N := by omega
      simp [this, hs, ih (i + 1)]

/-- C2 counterexample: with S = 5 and N = 4 (chunk_size = 2), the code gives
worker 2 the range [4, 5], while the claimed formula
[i*chunkSize, min((i+1)*chunkSize - 1, S-1)] would give [4, 4]; the code does
not clamp a non-final worker's end offset to S-1. -/
theorem C2_partition_cex :
    partition 5 4 = [(0, 1), (2, 3), (4, 5)] ∧
    partitionSpec 5 4 = [(0, 1), (2, 3), (4, 4)] ∧
    partition 5 4 ≠ partitionSpec 5 4 :=
  ⟨rfl, by decide, by decide⟩

/-- C2 amended: for S >= 1 and N >= 1, main creates exactly the workers whose
start offset i*chunkSize is below S, and assigns worker i the range
[i*chunkSize, S-1] when i = N-1 and [i*chunkSize, (i+1)*chunkSize - 1]
otherwise (with no clamping of the end offset for non-final workers); every
created worker's start offset is below S. -/
theorem C2_partition_amended (S N : Nat) (_hS : 1 ≤ S) (_hN : 1 ≤ N) :
    partition S N = partitionExpected S N ∧ ∀ p ∈ partition S N, p.1 < S := by
  have heq : partition S N = partitionExpected S N := by
    rw [partition, partitionExpected, partitionAux_eq_filter, List.range_eq_range']
  refine ⟨heq, ?_⟩
  intro p hp
  rw [heq, partitionExpected] at hp
  rcases List.mem_map.mp hp with ⟨j, hj, rfl⟩
  have := List.of_mem_filter hj
  simpa using this

/-- Witness for the amended C2 at S = 5, N = 4. -/
theorem C2_partition_amended_witness :
    (1 : Nat) ≤ 5 ∧ (1 : Nat) ≤ 4 ∧
    partition 5 4 = partitionExpected 5 4 ∧ ∀ p ∈ partition 5 4, p.1 < 5 :=
  ⟨by decide, by decide,
   (C2_partition_amended 5 4 (by decide) (by decide)).1,
   (C2_partition_amended 5 4 (by decide) (by decide)).2⟩

-- ## C10 — usize underflow in the end-offset expressions for total_size = 0

/-- Underflow-checked subtraction: none models the unsigned-subtraction fault
(panic in debug builds, wraparound in release builds) Rust raises when the
subtrahend exceeds the minuend. -/
def checkedSub (a b : Nat) : Option Nat := if b ≤ a then some (a - b) else none

/-- The worker end-offset expression with checked subtraction. -/
def workerEndChecked (S N i : Nat) : Option Nat :=
  if i = N - 1 then checkedSub S 1 else checkedSub ((i + 1) * chunk_size S N) 1

/-- The spawn loop with the checked end expression; the end offset is
evaluated before the `start >= total_size` guard, exactly as in the source. -/
def partitionCheckedAux (S N : Nat) : Nat → Nat → Option (List (Nat × Nat))
  | 0, _ => some []
  | r + 1, i =>
    let start := i * chunk_size S N
    match workerEndChecked S N i with
    | none => none
    | some e =>
      if S ≤ start then some []
      else
        match partitionCheckedAux S N r (i + 1) with
        | none => none
        | some rest => some ((start, e) :: rest)

def partitionChecked (S N : Nat) : Option (List (Nat × Nat)) := partitionCheckedAux S N N 0

theorem workerEndChecked_some (S N : Nat) (hS : 1 ≤ S) (hN : 1 ≤ N) (i : Nat) :
    workerEndChecked S N i = some (workerEnd S N i) := by
  have hcs : 1 ≤ chunk_size S N := by
    rw [chunk_size]
    rw [Nat.le_div_iff_mul_le (by omega)]
    omega
  have hmul : 1 ≤ (i + 1) * chunk_size S N := by
    calc 1 ≤ chunk_size S N := hcs
    _ = 1 * chunk_size S N := by ring
    _ ≤ (i + 1) * chunk_size S N := Nat.mul_le_mul_right _ (by omega)
  by_cases hi : i = N - 1 <;> simp [workerEndChecked, workerEnd, checkedSub, hi, hS, hmul]

/-- C10: the partition computation is total exactly under the precondition
total_size >= 1.  For total_size = 0 (a server declaring Content-Length: 0)
and any worker count N >= 1, the very first end-offset expression performs an
unsigned subtraction below zero before the `start >= total_size` guard runs;
for every total_size >= 1 all start/end computations are underflow-free and
the checked loop returns exactly the partition main computes. -/
theorem C10_partition_underflow (S N : Nat) (hN : 1 ≤ N) :
    partitionChecked 0 N = none ∧
    (1 ≤ S → partitionChecked S N = some (partition S N)) := by
  constructor
  · obtain ⟨r, rfl⟩ : ∃ r, N = r + 1 := ⟨N - 1, by omega⟩
    have hend : workerEndChecked 0 (r + 1) 0 = none := by
      have hcs : chunk_size 0 (r + 1) = 0 := by
        rw [chunk_size]
        exact Nat.div_eq_of_lt (by omega)
      by_cases hr : r = 0
      · subst hr; decide
      · have h0 : (0 : Nat) ≠ r + 1 - 1 := by omega
        simp [workerEndChecked, checkedSub, h0, hcs]
    simp [partitionChecked, partitionCheckedAux, hend]
  · intro hS
    rw [partitionChecked, partition]
    have key : ∀ r i, partitionCheckedAux S N r i = some (partitionAux S N r i) := by
      intro r
      induction r with
      | zero => intro i; simp [partitionCheckedAux, partitionAux]
      | succ r ih =>
        intro i
        simp only [partitionCheckedAux, partitionAux, workerEndChecked_some S N hS hN i]
        by_cases hs : S ≤ i * chunk_size S N <;> simp [hs, ih (i + 1)]
    exact key N 0

/-- Witness for C10 at N = 2: total_size 0 underflows, total_size 7 does not
and yields main's partition. -/
theorem C10_partition_underflow_witness :
    (1 : Nat) ≤ 2 ∧
    partitionChecked 0 2 = none ∧
    partitionChecked 7 2 = some (partition 7 2) :=
  ⟨by decide, (C10_partition_underflow 0 2 (by decide)).1,
   (C10_partition_underflow 7 2 (by decide)).2 (by decide)⟩

-- ## Range worker loop (src/main.rs lines 56-84)
-- A worker owns the closed range [start, range_end].  Each iteration performs
-- one download_chunk call whose outcome is given by an oracle (indexed by the
-- iteration count); network and protocol behaviour are external to the loop.

/-- Outcome of one download_chunk call as seen by the worker: a body (possibly
empty) or an I/O / protocol error. -/
inductive FetchOutcome where
  | success (bytes : Chunk)
  | failure
  deriving Repr

/-- One worker-loop iteration body: on a non-empty chunk insert it at the
cursor and advance by its length; on an empty chunk or an error insert the
1-byte placeholder vec![0] at the cursor and advance by exactly 1. -/
def workerStep (cursor : Nat) (out : FetchOutcome) (buf : Buffer) : Buffer × Nat :=
  match out with
  | .success b =>
    if b.isEmpty then (insertB cursor [0] buf, cursor + 1)
    else (insertB cursor b buf, cursor + b.length)
  | .failure => (insertB cursor [0] buf, cursor + 1)

/-- The worker's `while current_start <= range_end` loop, fuelled: `none`
means the fuel ran out before the loop condition failed, so `some` results
certify termination within the given number of iterations. -/
def workerLoopF : Nat → (Nat → FetchOutcome) → Nat → Nat → Nat → Buffer →
    Option (Buffer × Nat)
  | 0, _, _, _, _, _ => none
  | fuel + 1, oracle, rangeEnd, k, cursor, buf =>
    if cursor ≤ rangeEnd then
      let st := workerStep cursor (oracle k) buf
      workerLoopF fuel oracle rangeEnd (k + 1) st.2 st.1
    else some (buf, cursor)

theorem workerStep_advance (cursor : Nat) (out : FetchOutcome) (buf : Buffer) :
    cursor + 1 ≤ (workerStep cursor out buf).2 := by
  cases out with
  | success b =>
    by_cases hb : b.isEmpty
    · simp [workerStep, hb]
    · have : 1 ≤ b.length := by
        cases b with
        | nil => simp [List.isEmpty] at hb
        | cons a t => simp
      simp [workerStep, hb]
      omega
  | failure => simp [workerStep]

theorem workerLoopF_terminates (oracle : Nat → FetchOutcome) (rangeEnd : Nat) :
    ∀ fuel k cursor buf, 1 ≤ fuel → rangeEnd + 2 ≤ cursor + fuel →
      ∃ buf' c', workerLoopF fuel oracle rangeEnd k cursor buf = some (buf', c') ∧
        rangeEnd < c' := by
  intro fuel
  induction fuel with
  | zero => intro k cursor buf h1 _; omega
  | succ fuel ih =>
    intro k cursor buf _ h2
    by_cases hc : cursor ≤ rangeEnd
    · have hadv := workerStep_advance cursor (oracle k) buf
      have h1' : 1 ≤ fuel := by omega
      have h2' : rangeEnd + 2 ≤ (workerStep cursor (oracle k) buf).2 + fuel := by omega
      obtain ⟨buf', c', heq, hlt⟩ :=
        ih (k + 1) (workerStep cursor (oracle k) buf).2 (workerStep cursor (oracle k) buf).1 h1' h2'
      exact ⟨buf', c', by simp [workerLoopF, hc, heq], hlt⟩
    · exact ⟨buf, cursor, by simp [workerLoopF, hc], by omega⟩

/-- C8: for every assigned range and every sequence of fetch outcomes the
worker loop terminates within range_end + 2 iterations — each iteration
advances the cursor by len(chunk) >= 1 on a non-empty result and by exactly 1
(inserting the 1-byte placeholder vec![0]) on an empty result or a failure —
and the worker exits normally (a `some` result: the loop condition
cursor <= range_end failed; no fetch error is escalated, the loop body having
no error exit). -/
theorem C8_worker_terminates (oracle : Nat → FetchOutcome) (rangeEnd k cursor : Nat)
    (buf : Buffer) :
    (∃ buf' c', workerLoopF (rangeEnd + 2) oracle rangeEnd k cursor buf = some (buf', c') ∧
      rangeEnd < c') ∧
    (∀ c b bf, ¬ b.isEmpty →
      workerStep c (.success b) bf = (insertB c b bf, c + b.length)) ∧
    (∀ c b bf, b.isEmpty →
      workerStep c (.success b) bf = (insertB c [0] bf, c + 1)) ∧
    (∀ c bf, workerStep c .failure bf = (insertB c [0] bf, c + 1)) := by
  refine ⟨workerLoopF_terminates oracle rangeEnd (rangeEnd + 2) k cursor buf (by omega)
    (by omega), ?_, ?_, ?_⟩
  · intro c b bf hb; simp [workerStep, hb]
  · intro c b bf hb; simp [workerStep, hb]
  · intro c bf; rfl

-- ## Supporting lemmas on process_chunks state evolution

theorem pcLoop_w_le (h : List Nat) (w : Nat) (buf : Buffer) (S : Nat) :
    w ≤ (pcLoop h w buf S).2.2.1 := by
  induction buf generalizing h w with
  | nil => simp [pcLoop]
  | cons p rest ih =>
    obtain ⟨o, b⟩ := p
    by_cases h1 : o < w
    · simpa [pcLoop, h1] using ih h w
    · by_cases h2 : o = w
      · by_cases h3 : w + b.length > S
        · simp [pcLoop, h1, h2, h3]
        · have := ih (h ++ b) (w + b.length)
          simp [pcLoop, h1, h2, h3]
          omega
      · simp [pcLoop, h1, h2]

theorem pcLoop_buf_suffix (h : List Nat) (w : Nat) (buf : Buffer) (S : Nat) :
    (pcLoop h w buf S).2.2.2 <:+ buf := by
  induction buf generalizing h w with
  | nil => simp [pcLoop]
  | cons p rest ih =>
    obtain ⟨o, b⟩ := p
    by_cases h1 : o < w
    · have hstep : pcLoop h w ((o, b) :: rest) S = pcLoop h w rest S := by
        simp [pcLoop, h1]
      rw [hstep]
      exact (ih h w).trans (List.suffix_cons (o, b) rest)
    · by_cases h2 : o = w
      · by_cases h3 : w + b.length > S
        · simp [pcLoop, h1, h2, h3]
        · have hstep : pcLoop h w ((o, b) :: rest) S =
              pcLoop (h ++ b) (w + b.length) rest S := by
            simp [pcLoop, h1, h2, h3]
          rw [hstep]
          exact (ih (h ++ b) (w + b.length)).trans (List.suffix_cons (o, b) rest)
      · simp [pcLoop, h1, h2]

theorem process_chunks_state (h : List Nat) (w : Nat) (buf : Buffer) (S : Nat) :
    (process_chunks h w buf S).2 = (pcLoop h w buf S).2 := by
  rw [process_chunks]
  rcases pcLoop h w buf S with ⟨r, h', w', buf'⟩
  cases r with
  | error e => rfl
  | ok u => by_cases h3 : w' > S <;> simp [h3]

theorem process_chunks_ok_parts (h : List Nat) (w : Nat) (buf : Buffer) (S : Nat)
    (hok : (process_chunks h w buf S).1 = .ok ()) :
    (pcLoop h w buf S).1 = .ok () ∧ (process_chunks h w buf S).2.2.1 ≤ S := by
  rw [process_chunks] at hok ⊢
  rcases hpc : pcLoop h w buf S with ⟨r, h', w', buf'⟩
  rw [hpc] at hok
  cases r with
  | error e => simp at hok
  | ok u =>
    by_cases h3 : w' > S
    · simp [h3] at hok
    · simpa [h3] using by omega

theorem process_chunks_sorted (h : List Nat) (w : Nat) (buf : Buffer) (S : Nat)
    (hs : sortedB buf) : sortedB ((process_chunks h w buf S).2.2.2) := by
  have h1 : (process_chunks h w buf S).2.2.2 = (pcLoop h w buf S).2.2.2 := by
    rw [process_chunks_state]
  rw [h1]
  exact hs.sublist (pcLoop_buf_suffix h w buf S).sublist

theorem mem_insertB (o : Nat) (b : Chunk) :
    ∀ (buf : Buffer) (q : Nat × Chunk), q ∈ insertB o b buf → q = (o, b) ∨ q ∈ buf := by
  intro buf
  induction buf with
  | nil => simp [insertB]
  | cons p rest ih =>
    obtain ⟨k, v⟩ := p
    intro q hq
    by_cases h1 : o < k
    · simp only [insertB, if_pos h1] at hq
      simpa using hq
    · by_cases h2 : o = k
      · simp only [insertB, if_neg h1, if_pos h2] at hq
        rcases List.mem_cons.mp hq with hq | hq
        · exact Or.inl hq
        · exact Or.inr (List.mem_cons_of_mem _ hq)
      · simp only [insertB, if_neg h1, if_neg h2] at hq
        rcases List.mem_cons.mp hq with hq | hq
        · exact Or.inr (hq ▸ List.mem_cons_self _ _)
        · rcases ih q hq with hq' | hq'
          · exact Or.inl hq'
          · exact Or.inr (List.mem_cons_of_mem _ hq')

theorem insertB_sorted (o : Nat) (b : Chunk) :
    ∀ buf : Buffer, sortedB buf → sortedB (insertB o b buf) := by
  intro buf
  induction buf with
  | nil => intro _; simp [insertB, sortedB]
  | cons p rest ih =>
    obtain ⟨k, v⟩ := p
    intro hs
    rw [sortedB, List.pairwise_cons] at hs
    obtain ⟨hk, hrest⟩ := hs
    by_cases h1 : o < k
    · rw [insertB, if_pos h1, sortedB, List.pairwise_cons]
      constructor
      · intro q hq
        rcases List.mem_cons.mp hq with hq | hq
        · subst hq; exact h1
        · exact h1.trans (hk q hq)
      · rw [sortedB] at *
        exact List.Pairwise.cons hk hrest
    · by_cases h2 : o = k
      · rw [insertB, if_neg h1, if_pos h2, sortedB, List.pairwise_cons]
        exact ⟨fun q hq => h2 ▸ hk q hq, hrest⟩
      · rw [insertB, if_neg h1, if_neg h2, sortedB, List.pairwise_cons]
        constructor
        · intro q hq
          rcases mem_insertB o b rest q hq with hq' | hq'
          · subst hq'; simp; omega
          · exact hk q hq'
        · exact ih hrest

theorem pcLoop_insert_advance (S : Nat) (b : Chunk) :
    ∀ (buf : Buffer) (h : List Nat) (w : Nat), sortedB buf →
      (pcLoop h w (insertB w b buf) S).1 = .ok () →
      w + b.length ≤ (pcLoop h w (insertB w b buf) S).2.2.1 := by
  intro buf
  induction buf with
  | nil =>
    intro h w _ hok
    by_cases h3 : w + b.length > S
    · simp [pcLoop, insertB, h3] at hok
    · have := pcLoop_w_le (h ++ b) (w + b.length) [] S
      simp [pcLoop, insertB, h3]
  | cons p rest ih =>
    obtain ⟨k, v⟩ := p
    intro h w hs hok
    rw [sortedB, List.pairwise_cons] at hs
    obtain ⟨hk, hrest⟩ := hs
    by_cases h1 : w < k
    · rw [insertB, if_pos h1] at hok ⊢
      by_cases h3 : w + b.length > S
      · simp [pcLoop, h3] at hok
      · have hstep : pcLoop h w ((w, b) :: (k, v) :: rest) S =
            pcLoop (h ++ b) (w + b.length) ((k, v) :: rest) S := by
          simp [pcLoop, h3]
        rw [hstep]
        exact pcLoop_w_le _ _ _ _
    · by_cases h2 : w = k
      · rw [insertB, if_neg h1, if_pos h2] at hok ⊢
        by_cases h3 : w + b.length > S
        · simp [pcLoop, h3] at hok
        · have hstep : pcLoop h w ((w, b) :: rest) S =
              pcLoop (h ++ b) (w + b.length) rest S := by
            simp [pcLoop, h3]
          rw [hstep]
          exact pcLoop_w_le _ _ _ _
      · have hkw : k < w := by omega
        rw [insertB, if_neg h1, if_neg h2] at hok ⊢
        have hstep : pcLoop h w ((k, v) :: insertB w b rest) S =
            pcLoop h w (insertB w b rest) S := by
          simp [pcLoop, hkw]
        rw [hstep] at hok ⊢
        exact ih h w hrest hok

theorem process_chunks_insert_advance (S : Nat) (b : Chunk) (buf : Buffer)
    (h : List Nat) (w : Nat) (hs : sortedB buf)
    (hok : (process_chunks h w (insertB w b buf) S).1 = .ok ()) :
    w + b.length ≤ (process_chunks h w (insertB w b buf) S).2.2.1 := by
  have hpc := (process_chunks_ok_parts h w (insertB w b buf) S hok).1
  have hst := process_chunks_state h w (insertB w b buf) S
  have : (process_chunks h w (insertB w b buf) S).2.2.1 =
      (pcLoop h w (insertB w b buf) S).2.2.1 := by rw [hst]
  rw [this]
  exact pcLoop_insert_advance S b buf h w hs hpc

-- ## Fallback completer loop (src/main.rs lines 95-118)

/-- The bytes main inserts for one fallback fetch: the body when non-empty,
the 1-byte placeholder vec![0] when the body is empty or the fetch failed. -/
def fetchBytes : FetchOutcome → Chunk
  | .success bs => if bs.isEmpty then [0] else bs
  | .failure => [0]

theorem fetchBytes_ne_nil (out : FetchOutcome) : fetchBytes out ≠ [] := by
  cases out with
  | success bs =>
    by_cases hb : bs.isEmpty
    · simp [fetchBytes, hb]
    · simp only [fetchBytes, if_neg hb]
      exact fun hc => hb (by simp [hc])
  | failure => simp [fetchBytes]

/-- The `while bytes_hashed < total_size` loop of main, fuelled: drain with
process_chunks (its error escalated by `?`), and while bytes are still
missing, synchronously fetch [watermark, total_size-1] (outcome supplied by
the oracle, indexed by fetch count) and insert the result — or the 1-byte
placeholder — at offset watermark.  `none` means the fuel ran out before the
loop exited, so a `some` result certifies termination. -/
def fallbackLoopF (S : Nat) (oracle : Nat → FetchOutcome) :
    Nat → Nat → List Nat → Nat → Buffer →
    Option (Except MergeErr (List Nat × Nat × Buffer))
  | 0, _, _, _, _ => none
  | fuel + 1, k, h, w, buf =>
    if w < S then
      match process_chunks h w buf S with
      | (.error e, _, _, _) => some (.error e)
      | (.ok _, h', w', buf') =>
        if w' < S then
          fallbackLoopF S oracle fuel (k + 1) h' w' (insertB w' (fetchBytes (oracle k)) buf')
        else fallbackLoopF S oracle fuel k h' w' buf'
    else some (.ok (h, w, buf))

theorem fallbackLoopF_exit (S : Nat) (oracle : Nat → FetchOutcome) (fuel k : Nat)
    (h : List Nat) (w : Nat) (buf : Buffer) (h1 : 1 ≤ fuel) (h2 : ¬ w < S) :
    fallbackLoopF S oracle fuel k h w buf = some (.ok (h, w, buf)) := by
  obtain ⟨f, rfl⟩ : ∃ f, fuel = f + 1 := ⟨fuel - 1, by omega⟩
  simp [fallbackLoopF, h2]

theorem fallbackLoopF_succ_error {S : Nat} {oracle : Nat → FetchOutcome} {fuel k : Nat}
    {h : List Nat} {w : Nat} {buf : Buffer} {e : MergeErr} {h1 : List Nat} {w1 : Nat}
    {buf1 : Buffer} (hw : w < S)
    (hpc : process_chunks h w buf S = (.error e, h1, w1, buf1)) :
    fallbackLoopF S oracle (fuel + 1) k h w buf = some (.error e) := by
  rw [fallbackLoopF, if_pos hw, hpc]

theorem fallbackLoopF_succ_ok {S : Nat} {oracle : Nat → FetchOutcome} {fuel k : Nat}
    {h : List Nat} {w : Nat} {buf : Buffer} {h1 : List Nat} {w1 : Nat} {buf1 : Buffer}
    (hw : w < S) (hpc : process_chunks h w buf S = (.ok (), h1, w1, buf1)) :
    fallbackLoopF S oracle (fuel + 1) k h w buf =
      (if w1 < S then
        fallbackLoopF S oracle fuel (k + 1) h1 w1 (insertB w1 (fetchBytes (oracle k)) buf1)
      else fallbackLoopF S oracle fuel k h1 w1 buf1) := by
  rw [fallbackLoopF, if_pos hw, hpc]

theorem fallbackLoopF_insert_terminates (S : Nat) (oracle : Nat → FetchOutcome) :
    ∀ fuel k (h : List Nat) (w : Nat) (buf : Buffer) (b : Chunk),
      sortedB buf → b ≠ [] → w < S → S + 3 ≤ fuel + w → 2 ≤ fuel →
      ∃ r, fallbackLoopF S oracle fuel k h w (insertB w b buf) = some r ∧
        (∀ h' w' buf', r = .ok (h', w', buf') → w' = S) := by
  intro fuel
  induction fuel with
  | zero => intro k h w buf b _ _ _ _ hf; omega
  | succ fuel ih =>
    intro k h w buf b hs hb hwS hfw _
    rcases hpc : process_chunks h w (insertB w b buf) S with ⟨r, h1, w1, buf1⟩
    cases r with
    | error e =>
      refine ⟨.error e, fallbackLoopF_succ_error hwS hpc, ?_⟩
      intro h' w' buf' hc
      cases hc
    | ok u =>
      cases u
      have hok : (process_chunks h w (insertB w b buf) S).1 = .ok () := by rw [hpc]
      have hadv : w + b.length ≤ w1 := by
        have := process_chunks_insert_advance S b buf h w hs hok
        rw [hpc] at this
        exact this
      have hble : 1 ≤ b.length := by
        cases b with
        | nil => exact absurd rfl hb
        | cons a t => simp
      have hw1S : w1 ≤ S := by
        have := (process_chunks_ok_parts h w (insertB w b buf) S hok).2
        rw [hpc] at this
        exact this
      have hs1 : sortedB buf1 := by
        have := process_chunks_sorted h w (insertB w b buf) S
          (insertB_sorted w b buf hs)
        rw [hpc] at this
        exact this
      rw [fallbackLoopF_succ_ok hwS hpc]
      by_cases hlt : w1 < S
      · rw [if_pos hlt]
        exact ih (k + 1) h1 w1 buf1 (fetchBytes (oracle k)) hs1
          (fetchBytes_ne_nil _) hlt (by omega) (by omega)
      · rw [if_neg hlt]
        refine ⟨.ok (h1, w1, buf1), fallbackLoopF_exit S oracle fuel k h1 w1 buf1
          (by omega) hlt, ?_⟩
        intro h' w' buf' hc
        cases hc
        omega

/-- C9: for every total_size S and every sequence of fallback fetch outcomes
the fallback-completer loop terminates within S + 4 iterations (a `some`
result): every post-insert iteration either strictly increases the watermark
— by merging the fetched chunk or the 1-byte placeholder inserted at offset
watermark — or returns the fatal integrity error, and when the loop exits
normally (an `ok` result) the watermark equals total_size. -/
theorem C9_fallback_terminates (S : Nat) (oracle : Nat → FetchOutcome) (k : Nat)
    (h : List Nat) (w : Nat) (buf : Buffer) (b : Chunk)
    (hs : sortedB buf) (hw : w ≤ S) (hb : b ≠ []) :
    (∃ r, fallbackLoopF S oracle (S + 4) k h w buf = some r ∧
      (∀ h' w' buf', r = .ok (h', w', buf') → w' = S)) ∧
    ((process_chunks h w (insertB w b buf) S).1 = .ok () →
      w + 1 ≤ (process_chunks h w (insertB w b buf) S).2.2.1) := by
  constructor
  · by_cases hwS : w < S
    · rw [show S + 4 = (S + 3) + 1 by omega]
      rcases hpc : process_chunks h w buf S with ⟨r, h1, w1, buf1⟩
      cases r with
      | error e =>
        refine ⟨.error e, fallbackLoopF_succ_error hwS hpc, ?_⟩
        intro h' w' buf' hc
        cases hc
      | ok u =>
        cases u
        have hok : (process_chunks h w buf S).1 = .ok () := by rw [hpc]
        have hw1S : w1 ≤ S := by
          have := (process_chunks_ok_parts h w buf S hok).2
          rw [hpc] at this
          exact this
        have hs1 : sortedB buf1 := by
          have := process_chunks_sorted h w buf S hs
          rw [hpc] at this
          exact this
        rw [fallbackLoopF_succ_ok hwS hpc]
        by_cases hlt : w1 < S
        · rw [if_pos hlt]
          exact fallbackLoopF_insert_terminates S oracle (S + 3) (k + 1) h1 w1 buf1
            (fetchBytes (oracle k)) hs1 (fetchBytes_ne_nil _) hlt (by omega) (by omega)
        · rw [if_neg hlt]
          refine ⟨.ok (h1, w1, buf1), fallbackLoopF_exit S oracle (S + 3) k h1 w1 buf1
            (by omega) hlt, ?_⟩
          intro h' w' buf' hc
          cases hc
          omega
    · refine ⟨.ok (h, w, buf), fallbackLoopF_exit S oracle (S + 4) k h w buf
        (by omega) hwS, ?_⟩
      intro h' w' buf' hc
      cases hc
      omega
  · intro hok
    have := process_chunks_insert_advance S b buf h w hs hok
    have hble : 1 ≤ b.length := by
      cases b with
      | nil => exact absurd rfl hb
      | cons a t => simp
    omega

/-- A concrete fetch oracle for the loop witnesses: every fetch returns the
3-byte body [1, 2, 3]. -/
def oracleW : Nat → FetchOutcome := fun _ => .success [1, 2, 3]

/-- Witness for C8: a worker assigned [0, 4] with every fetch returning 3
bytes terminates within 6 iterations with its cursor beyond the range end. -/
theorem C8_worker_terminates_witness :
    ∃ buf' c', workerLoopF (4 + 2) oracleW 4 0 0 [] = some (buf', c') ∧ 4 < c' :=
  (C8_worker_terminates oracleW 4 0 0 []).1

/-- Witness for C9 at S = 2 starting from an empty buffer and watermark 0. -/
theorem C9_fallback_terminates_witness :
    sortedB [] ∧ (0 : Nat) ≤ 2 ∧ ([7] : Chunk) ≠ [] ∧
    ((∃ r, fallbackLoopF 2 oracleW (2 + 4) 0 [] 0 [] = some r ∧
      (∀ h' w' buf', r = .ok (h', w', buf') → w' = 2)) ∧
     ((process_chunks [] 0 (insertB 0 [7] []) 2).1 = .ok () →
      0 + 1 ≤ (process_chunks [] 0 (insertB 0 [7] []) 2).2.2.1)) :=
  ⟨List.Pairwise.nil, by decide, by decide,
   C9_fallback_terminates 2 oracleW 0 [] 0 [] [7] List.Pairwise.nil (by decide) (by decide)⟩

-- ## Tiling lemmas for the order-independence claim

theorem tilesB_nil {w S : Nat} (ht : tilesB w [] S = true) : w = S := by
  simpa [tilesB] using ht

theorem tilesB_cons {w o : Nat} {b : Chunk} {rest : List (Nat × Chunk)} {S : Nat}
    (ht : tilesB w ((o, b) :: rest) S = true) :
    o = w ∧ b ≠ [] ∧ tilesB (w + b.length) rest S = true := by
  have h' : (o = w ∧ ¬ b = []) ∧ tilesB (w + b.length) rest S = true := by
    simpa [tilesB] using ht
  exact ⟨h'.1.1, h'.1.2, h'.2⟩

theorem tilesB_le {S : Nat} :
    ∀ {todo : List (Nat × Chunk)} {w : Nat}, tilesB w todo S = true → w ≤ S := by
  intro todo
  induction todo with
  | nil => intro w ht; exact le_of_eq (tilesB_nil ht)
  | cons p rest ih =>
    intro w ht
    obtain ⟨o, b⟩ := p
    obtain ⟨_, _, ht'⟩ := tilesB_cons ht
    have := ih ht'
    omega

theorem tilesB_mem_le {S : Nat} :
    ∀ {todo : List (Nat × Chunk)} {w : Nat}, tilesB w todo S = true →
      ∀ p ∈ todo, w ≤ p.1 := by
  intro todo
  induction todo with
  | nil => intro w _ p hp; cases hp
  | cons q rest ih =>
    intro w ht p hp
    obtain ⟨o, b⟩ := q
    obtain ⟨ho, _, ht'⟩ := tilesB_cons ht
    rcases List.mem_cons.mp hp with hp | hp
    · subst hp; omega
    · have := ih ht' p hp
      omega

theorem tilesB_mem_at_w {S w : Nat} {b : Chunk} :
    ∀ {todo : List (Nat × Chunk)}, tilesB w todo S = true → (w, b) ∈ todo →
      ∃ rest, todo = (w, b) :: rest := by
  intro todo ht hm
  cases todo with
  | nil => cases hm
  | cons q rest =>
    obtain ⟨o, b0⟩ := q
    obtain ⟨ho, hb0, ht'⟩ := tilesB_cons ht
    rcases List.mem_cons.mp hm with hm | hm
    · exact ⟨rest, by rw [← hm]⟩
    · have hle : w + b0.length ≤ w := tilesB_mem_le ht' (w, b) hm
      have hlen : 0 < b0.length := List.length_pos.mpr hb0
      omega

theorem insertB_perm (o : Nat) (b : Chunk) :
    ∀ buf : Buffer, (∀ p ∈ buf, p.1 ≠ o) →
      (insertB o b buf).Perm ((o, b) :: buf) := by
  intro buf
  induction buf with
  | nil => intro _; simp [insertB]
  | cons q rest ih =>
    obtain ⟨k, v⟩ := q
    intro hne
    by_cases h1 : o < k
    · rw [insertB, if_pos h1]
    · have h2 : o ≠ k := fun hc => hne (k, v) (List.mem_cons_self _ _) hc.symm
      rw [insertB, if_neg h1, if_neg h2]
      have hrest : ∀ p ∈ rest, p.1 ≠ o := fun p hp =>
        hne p (List.mem_cons_of_mem _ hp)
      exact ((ih hrest).cons (k, v)).trans (List.Perm.swap (o, b) (k, v) rest)

theorem pcLoop_inv (S : Nat) (P : List (Nat × Chunk)) :
    ∀ (buf : Buffer) (todo : List (Nat × Chunk)) (h : List Nat) (w : Nat),
      sortedB buf → tilesB w todo S = true → (buf ++ P).Perm todo →
      ∃ merged todo' buf',
        todo = merged ++ todo' ∧
        pcLoop h w buf S =
          (.ok (), h ++ (merged.map Prod.snd).flatten,
           w + ((merged.map Prod.snd).flatten).length, buf') ∧
        tilesB (w + ((merged.map Prod.snd).flatten).length) todo' S = true ∧
        (buf' ++ P).Perm todo' ∧
        (∀ p ∈ buf', w + ((merged.map Prod.snd).flatten).length < p.1) := by
  intro buf
  induction buf with
  | nil =>
    intro todo h w _ ht hp
    exact ⟨[], todo, [], by simp, by simp [pcLoop], by simpa using ht,
      by simpa using hp, by simp⟩
  | cons q rest ih =>
    obtain ⟨o, b⟩ := q
    intro todo h w hs ht hp
    rw [sortedB, List.pairwise_cons] at hs
    obtain ⟨hk, hrest⟩ := hs
    have hmem : (o, b) ∈ todo := hp.mem_iff.mp (by simp)
    have hwo : w ≤ o := tilesB_mem_le ht (o, b) hmem
    by_cases h2 : o = w
    · subst h2
      obtain ⟨todo1, htodo⟩ := tilesB_mem_at_w ht hmem
      subst htodo
      obtain ⟨ho', hb, ht1⟩ := tilesB_cons ht
      have hle : o + b.length ≤ S := tilesB_le ht1
      have h3 : ¬ o + b.length > S := by omega
      have hstep : pcLoop h o ((o, b) :: rest) S =
          pcLoop (h ++ b) (o + b.length) rest S := by
        simp [pcLoop, h3]
      have hp1 : (rest ++ P).Perm todo1 := by
        have hmid : ((o, b) :: (rest ++ P)).Perm ((o, b) :: todo1) := by
          simpa using hp
        exact hmid.cons_inv
      obtain ⟨m', todo', buf', hsplit', heq', ht', hp', hgt'⟩ :=
        ih todo1 (h ++ b) (o + b.length) hrest ht1 hp1
      refine ⟨(o, b) :: m', todo', buf', by simp [hsplit'], ?_, ?_, hp', ?_⟩
      · rw [hstep, heq']
        simp [List.append_assoc, List.length_append, Nat.add_assoc]
      · simpa [List.length_append, Nat.add_assoc] using ht'
      · intro p hpm
        have := hgt' p hpm
        simp only [List.map_cons, List.flatten_cons, List.length_append] at this ⊢
        omega
    · have hwlt : w < o := by omega
      have h1 : ¬ o < w := by omega
      refine ⟨[], todo, (o, b) :: rest, by simp, by simp [pcLoop, h1, h2],
        by simpa using ht, by simpa using hp, ?_⟩
      intro p hpm
      rcases List.mem_cons.mp hpm with hpm | hpm
      · subst hpm; simpa using hwlt
      · have := hk p hpm
        simp only [List.map_nil, List.flatten_nil, List.length_nil]
        omega

theorem tilesB_pairwise {S : Nat} :
    ∀ {todo : List (Nat × Chunk)} {w : Nat}, tilesB w todo S = true →
      List.Pairwise (fun p q : Nat × Chunk => p.1 < q.1) todo := by
  intro todo
  induction todo with
  | nil => intro w _; exact List.Pairwise.nil
  | cons x t iht =>
    intro w ht
    obtain ⟨ox, bx⟩ := x
    obtain ⟨hox, hbx, ht'⟩ := tilesB_cons ht
    refine List.Pairwise.cons ?_ (iht ht')
    intro y hy
    have h1 := tilesB_mem_le ht' y hy
    have hbxl : 0 < bx.length := List.length_pos.mpr hbx
    show ox < y.1
    omega

theorem process_chunks_inv (S : Nat) (P : List (Nat × Chunk)) (buf : Buffer)
    (todo : List (Nat × Chunk)) (h : List Nat) (w : Nat)
    (hs : sortedB buf) (ht : tilesB w todo S = true) (hp : (buf ++ P).Perm todo) :
    ∃ merged todo' buf',
      todo = merged ++ todo' ∧
      process_chunks h w buf S =
        (.ok (), h ++ (merged.map Prod.snd).flatten,
         w + ((merged.map Prod.snd).flatten).length, buf') ∧
      tilesB (w + ((merged.map Prod.snd).flatten).length) todo' S = true ∧
      (buf' ++ P).Perm todo' ∧
      (∀ p ∈ buf', w + ((merged.map Prod.snd).flatten).length < p.1) := by
  obtain ⟨merged, todo', buf', hsplit, heq, ht', hp', hgt⟩ :=
    pcLoop_inv S P buf todo h w hs ht hp
  have hwle : w + ((merged.map Prod.snd).flatten).length ≤ S := tilesB_le ht'
  have hno : ¬ w + ((merged.map Prod.snd).flatten).length > S := by omega
  refine ⟨merged, todo', buf', hsplit, ?_, ht', hp', hgt⟩
  rw [process_chunks, heq]
  exact if_neg hno

theorem runOps_cons_insert {S : Nat} {o : Nat} {b : Chunk}
    {rest : List (Option (Nat × Chunk))} {h : List Nat} {w : Nat} {buf : Buffer} :
    runOps S (some (o, b) :: rest) h w buf = runOps S rest h w (insertB o b buf) := by
  rw [runOps]

theorem runOps_cons_drain {S : Nat} {rest : List (Option (Nat × Chunk))}
    {h h1 : List Nat} {w w1 : Nat} {buf buf1 : Buffer}
    (hpc : process_chunks h w buf S = (.ok (), h1, w1, buf1)) :
    runOps S (none :: rest) h w buf = runOps S rest h1 w1 buf1 := by
  rw [runOps, hpc]

theorem runOps_inv (S : Nat) :
    ∀ (ops : List (Option (Nat × Chunk))) (h : List Nat) (w : Nat) (buf : Buffer)
      (todo : List (Nat × Chunk)),
      sortedB buf → tilesB w todo S = true →
      (buf ++ ops.filterMap id).Perm todo →
      ∃ merged todo' buf',
        todo = merged ++ todo' ∧
        runOps S ops h w buf =
          (.ok (), h ++ (merged.map Prod.snd).flatten,
           w + ((merged.map Prod.snd).flatten).length, buf') ∧
        tilesB (w + ((merged.map Prod.snd).flatten).length) todo' S = true ∧
        sortedB buf' ∧
        buf'.Perm todo' := by
  intro ops
  induction ops with
  | nil =>
    intro h w buf todo hs ht hp
    exact ⟨[], todo, buf, by simp, by simp [runOps], by simpa using ht, hs,
      by simpa using hp⟩
  | cons op rest ih =>
    intro h w buf todo hs ht hp
    cases op with
    | some q =>
      obtain ⟨o, b⟩ := q
      have hfm : List.filterMap id (some (o, b) :: rest) =
          (o, b) :: List.filterMap id rest := rfl
      rw [hfm] at hp
      have hnodup : List.Pairwise (fun p q : Nat × Chunk => p.1 ≠ q.1)
          (buf ++ (o, b) :: rest.filterMap id) := by
        have htp : List.Pairwise (fun p q : Nat × Chunk => p.1 ≠ q.1) todo :=
          (tilesB_pairwise ht).imp (fun hlt' => Nat.ne_of_lt hlt')
        have hsym : Symmetric (fun p q : Nat × Chunk => p.1 ≠ q.1) :=
          fun p q hne => hne.symm
        exact (List.Perm.pairwise_iff (fun hxy => hsym hxy) hp).mpr htp
      have hne : ∀ p ∈ buf, p.1 ≠ o := by
        rw [List.pairwise_append] at hnodup
        intro p hpb
        exact hnodup.2.2 p hpb (o, b) (List.mem_cons_self _ _)
      have hinsp : (insertB o b buf ++ rest.filterMap id).Perm todo := by
        have h1 : (insertB o b buf).Perm ((o, b) :: buf) := insertB_perm o b buf hne
        have h2 : (insertB o b buf ++ rest.filterMap id).Perm
            ((o, b) :: buf ++ rest.filterMap id) :=
          h1.append_right (rest.filterMap id)
        have h3 : ((o, b) :: (buf ++ rest.filterMap id)).Perm
            (buf ++ (o, b) :: rest.filterMap id) := List.perm_middle.symm
        exact (h2.trans h3).trans hp
      obtain ⟨merged, todo', buf', hsplit, heq, ht', hs', hp'⟩ :=
        ih h w (insertB o b buf) todo (insertB_sorted o b buf hs) ht hinsp
      exact ⟨merged, todo', buf', hsplit, by rw [runOps_cons_insert, heq], ht', hs', hp'⟩
    | none =>
      have hfm : List.filterMap id (none :: rest) = List.filterMap id rest := rfl
      rw [hfm] at hp
      obtain ⟨m1, todo1, buf1, hsplit1, heq1, ht1, hp1, _⟩ :=
        process_chunks_inv S (rest.filterMap id) buf todo h w hs ht hp
      have hs1 : sortedB buf1 := by
        have := process_chunks_sorted h w buf S hs
        rw [heq1] at this
        exact this
      obtain ⟨m2, todo', buf', hsplit2, heq2, ht2, hs', hp'⟩ :=
        ih (h ++ (m1.map Prod.snd).flatten) (w + ((m1.map Prod.snd).flatten).length)
          buf1 todo1 hs1 ht1 hp1
      refine ⟨m1 ++ m2, todo', buf', ?_, ?_, ?_, hs', hp'⟩
      · rw [hsplit1, hsplit2, List.append_assoc]
      · rw [runOps_cons_drain heq1, heq2]
        simp [List.append_assoc, List.length_append, Nat.add_assoc]
      · simpa [List.length_append, Nat.add_assoc] using ht2

/-- C1: for every set of non-overlapping, gap-free chunks exactly covering
[0, total_size) — a tiling — inserting them into the reassembly buffer in any
order, with process_chunks drains interleaved arbitrarily with the
insertions (one final pass included), succeeds and feeds the hash exactly the
concatenation of the chunk bytes in ascending offset order, with no gap and
no duplicate, ending with watermark = total_size and an empty buffer; since
the digest is a function of the fed byte stream, the final digest equals that
of hashing the concatenation directly. -/
theorem C1_merge_digest_eq (S : Nat) (chunks : List (Nat × Chunk))
    (ops : List (Option (Nat × Chunk)))
    (ht : tilesB 0 chunks S = true)
    (hperm : (ops.filterMap id).Perm chunks) :
    runAndDrain S ops = (.ok (), (chunks.map Prod.snd).flatten, S, []) := by
  obtain ⟨m1, todo1, buf1, hsplit1, hrun, ht1, hs1, hp1⟩ :=
    runOps_inv S ops [] 0 [] chunks List.Pairwise.nil ht (by simpa using hperm)
  obtain ⟨m2, todo2, buf2, hsplit2, hpc2, ht2, hp2, hgt2⟩ :=
    process_chunks_inv S [] buf1 todo1 ([] ++ (m1.map Prod.snd).flatten)
      (0 + ((m1.map Prod.snd).flatten).length) hs1 ht1 (by simpa using hp1)
  have htodo2 : todo2 = [] := by
    cases htd : todo2 with
    | nil => rfl
    | cons p t =>
      exfalso
      obtain ⟨pp, bb⟩ := p
      rw [htd] at ht2 hp2
      obtain ⟨hpp, _, _⟩ := tilesB_cons ht2
      have hmem : (pp, bb) ∈ buf2 := by
        have h2 := hp2.mem_iff.mpr (List.mem_cons_self (pp, bb) t)
        simpa using h2
      have hlt : (0 + ((m1.map Prod.snd).flatten).length) +
          ((m2.map Prod.snd).flatten).length < pp := hgt2 (pp, bb) hmem
      omega
  have hbuf2 : buf2 = [] := by
    rw [htodo2] at hp2
    simpa using hp2.eq_nil
  have hw2S : (0 + ((m1.map Prod.snd).flatten).length) +
      ((m2.map Prod.snd).flatten).length = S := by
    rw [htodo2] at ht2
    exact tilesB_nil ht2
  have hchunks : chunks = m1 ++ m2 := by
    rw [htodo2, List.append_nil] at hsplit2
    rw [hsplit1, hsplit2]
  have hrd : runAndDrain S ops =
      process_chunks ([] ++ (m1.map Prod.snd).flatten)
        (0 + ((m1.map Prod.snd).flatten).length) buf1 S := by
    rw [runAndDrain, hrun]
  rw [hrd, hpc2, hbuf2, hw2S, hchunks]
  simp [List.flatten_append]

/-- Witness for C1: [0, 5) tiled by three chunks inserted out of ascending
order with two interleaved drains before the final one. -/
theorem C1_merge_digest_eq_witness :
    tilesB 0 [(0, [1, 2]), (2, [3]), (3, [4, 5])] 5 = true ∧
    (([some (3, [4, 5]), none, some (0, [1, 2]), none, some (2, [3])] :
        List (Option (Nat × Chunk))).filterMap id).Perm
      [(0, [1, 2]), (2, [3]), (3, [4, 5])] ∧
    runAndDrain 5 [some (3, [4, 5]), none, some (0, [1, 2]), none, some (2, [3])] =
      (.ok (), [1, 2, 3, 4, 5], 5, []) :=
  ⟨by decide, by decide,
   C1_merge_digest_eq 5 [(0, [1, 2]), (2, [3]), (3, [4, 5])]
     [some (3, [4, 5]), none, some (0, [1, 2]), none, some (2, [3])]
     (by decide) (by decide)⟩

-- ## Response reader (src/main.rs lines 187-235)
-- A stream is modelled by its remaining byte content plus a schedule: entry k
-- caps how many bytes the k-th read call delivers (the stream's choice of
-- partial read); once the schedule is exhausted a read delivers as much as
-- fits the offered buffer.  A read returns min(cap, buffer size, remaining
-- content) bytes from the front; zero bytes once the content is exhausted —
-- the clean end-of-stream signal.

def schedHead : List Nat → Nat → Nat
  | [], d => d
  | k :: _, _ => k

def schedTail : List Nat → List Nat
  | [] => []
  | _ :: r => r

/-- buffer.windows(4).position(|w| w == b"\r\n\r\n"): index of the first
occurrence of the header terminator. -/
def findTerm : List Nat → Option Nat
  | [] => none
  | c :: rest =>
    if c = 13 ∧ rest.take 3 = [10, 13, 10] then some 0
    else
      match findTerm rest with
      | some p => some (p + 1)
      | none => none

/-- The header-reading loop: read into a 4096-byte buffer, append to the
accumulator, stop at the first terminator (split into headers including the
terminator, and the initial body fragment); a zero-byte read before the
terminator is the UnexpectedEof error.  The fuel argument (content.length + 1
at the call site) only bounds the iteration count; each productive iteration
consumes at least one content byte, so it is never exhausted. -/
def readHeadersF : Nat → List Nat → List Nat → List Nat →
    Except Unit (List Nat × List Nat × List Nat × List Nat)
  | 0, _, _, _ => .error ()
  | fuel + 1, sched, content, buf =>
    let n := min (min (schedHead sched 4096) 4096) content.length
    if n = 0 then .error ()
    else
      let buf' := buf ++ content.take n
      match findTerm buf' with
      | some p =>
        .ok (buf'.take (p + 4), buf'.drop (p + 4), schedTail sched, content.drop n)
      | none => readHeadersF fuel (schedTail sched) (content.drop n) buf'

/-- The body-reading loop: while remaining > 0 read into a buffer of
min(remaining, 4096) bytes, append, and decrement remaining; a zero-byte read
(clean stream close) breaks out, which is not an error. -/
def readBodyF : Nat → List Nat → List Nat → List Nat → Nat → List Nat
  | 0, _, _, body, _ => body
  | fuel + 1, sched, content, body, remaining =>
    if remaining = 0 then body
    else
      let bufSize := min remaining 4096
      let n := min (min (schedHead sched bufSize) bufSize) content.length
      if n = 0 then body
      else
        readBodyF fuel (schedTail sched) (content.drop n) (body ++ content.take n)
          (remaining - n)

/-- usize subtraction as the release-build semantics: wraps modulo 2^64 when
the subtrahend exceeds the minuend (models `len - body.len()`). -/
def wrapSub (a b : Nat) : Nat := if b ≤ a then a - b else 2 ^ 64 - (b - a)

-- Header text processing (str::from_utf8, to_lowercase, lines, split, trim,
-- parse::<usize>), modelled at the byte level for ASCII case folding.

def asciiLower (c : Nat) : Nat := if 65 ≤ c ∧ c ≤ 90 then c + 32 else c

def isWS (c : Nat) : Bool := decide (c = 32 ∨ (9 ≤ c ∧ c ≤ 13))

/-- str::trim on ASCII whitespace. -/
def trimWS (l : List Nat) : List Nat :=
  ((l.dropWhile isWS).reverse.dropWhile isWS).reverse

/-- str::split(sep): every segment between occurrences of the separator. -/
def splitOnByte (t : Nat) : List Nat → List (List Nat)
  | [] => [[]]
  | c :: rest =>
    if c = t then [] :: splitOnByte t rest
    else
      match splitOnByte t rest with
      | [] => [[c]]
      | l :: ls => (c :: l) :: ls

def stripCR (l : List Nat) : List Nat :=
  if l.getLast? = some 13 then l.dropLast else l

/-- str::lines: split at '\n', drop a final empty segment, strip one
trailing '\r' from each line. -/
def linesOf (s : List Nat) : List (List Nat) :=
  if s = [] then []
  else
    let segs := splitOnByte 10 s
    (if segs.getLast? = some [] then segs.dropLast else segs).map stripCR

/-- The bytes of "content-length:". -/
def clKey : List Nat :=
  [99, 111, 110, 116, 101, 110, 116, 45, 108, 101, 110, 103, 116, 104, 58]

/-- line.to_lowercase().starts_with("content-length:") (ASCII case fold). -/
def matchesCL (line : List Nat) : Bool := clKey.isPrefixOf (line.map asciiLower)

/-- The first header line declaring a content length. -/
def findCLLine : List (List Nat) → Option (List Nat)
  | [] => none
  | l :: ls => if matchesCL l then some l else findCLLine ls

/-- Decimal digit run to a number; none when empty or a non-digit occurs. -/
def digitsToNat (l : List Nat) : Option Nat :=
  if l.isEmpty then none
  else if l.all (fun c => decide (48 ≤ c ∧ c ≤ 57)) then
    some (l.foldl (fun a c => a * 10 + (c - 48)) 0)
  else none

/-- str::parse::<usize>: optional leading '+', then at least one digit. -/
def parseUsizeAscii : List Nat → Option Nat
  | 43 :: rest => digitsToNat rest
  | l => digitsToNat l

/-- Standard UTF-8 validity (what str::from_utf8 accepts): rejects stray
continuation bytes, overlong encodings, surrogates and values above
U+10FFFF. -/
def utf8Valid : List Nat → Bool
  | [] => true
  | c :: rest =>
    if c < 128 then utf8Valid rest
    else if c < 194 then false
    else if c < 224 then
      match rest with
      | c1 :: r => decide (128 ≤ c1 ∧ c1 < 192) && utf8Valid r
      | [] => false
    else if c < 240 then
      match rest with
      | c1 :: c2 :: r =>
        (if c = 224 then decide (160 ≤ c1 ∧ c1 < 192)
         else if c = 237 then decide (128 ≤ c1 ∧ c1 < 160)
         else decide (128 ≤ c1 ∧ c1 < 192)) &&
        decide (128 ≤ c2 ∧ c2 < 192) && utf8Valid r
      | _ => false
    else if c < 245 then
      match rest with
      | c1 :: c2 :: c3 :: r =>
        (if c = 240 then decide (144 ≤ c1 ∧ c1 < 192)
         else if c = 244 then decide (128 ≤ c1 ∧ c1 < 144)
         else decide (128 ≤ c1 ∧ c1 < 192)) &&
        decide (128 ≤ c2 ∧ c2 < 192) && decide (128 ≤ c3 ∧ c3 < 192) && utf8Valid r
      | _ => false
    else false

/-- io::ErrorKind values the reader and prober produce, plus the connect
failure. -/
inductive RErr where
  | unexpectedEof
  | invalidData
  | notFound
  | connectFailed
  deriving DecidableEq, Repr

/-- Result of running a fallible function that may also panic (unwrap on a
parse failure panics rather than returning an error). -/
inductive HttpRes (α : Type) where
  | panicked
  | error (e : RErr)
  | ok (a : α)
  deriving DecidableEq, Repr

/-- read_response: read headers to the terminator (UnexpectedEof if the
stream closes first), validate the header bytes as UTF-8 (InvalidData
otherwise), look for a content-length header — absent: return the body read
so far; present: parse its value with unwrap (panic on an unparsable value)
and keep reading until the body reaches the declared length, a zero-byte
read ending the body early without error. -/
def read_response (sched content : List Nat) : HttpRes (List Nat × List Nat) :=
  match readHeadersF (content.length + 1) sched content [] with
  | .error _ => .error .unexpectedEof
  | .ok (hdrs, body0, sched', content') =>
    if utf8Valid hdrs then
      match findCLLine (linesOf hdrs) with
      | none => .ok (hdrs, body0)
      | some line =>
        match (splitOnByte 58 line)[1]? with
        | none => .panicked
        | some seg =>
          match parseUsizeAscii (trimWS seg) with
          | none => .panicked
          | some len =>
            .ok (hdrs, readBodyF (content'.length + 1) sched' content' body0
              (wrapSub len body0.length))
    else .error .invalidData

/-- The declared content length of a header block: the value the scan-parse
chain extracts when it neither misses nor panics. -/
def declaredCL (hdrs : List Nat) : Option Nat :=
  match findCLLine (linesOf hdrs) with
  | none => none
  | some line =>
    match (splitOnByte 58 line)[1]? with
    | none => none
    | some seg => parseUsizeAscii (trimWS seg)

/-- get_content_length: connect (IOError on failure), send the probe request,
read the response, re-validate the headers as UTF-8, scan for the
content-length line and parse its value with unwrap (panic on failure);
NotFound when no such line exists. -/
def get_content_length (conn : Option (List Nat × List Nat)) : HttpRes Nat :=
  match conn with
  | none => .error .connectFailed
  | some (sched, content) =>
    match read_response sched content with
    | .panicked => .panicked
    | .error e => .error e
    | .ok (hdrs, _) =>
      if utf8Valid hdrs then
        match findCLLine (linesOf hdrs) with
        | some line =>
          match (splitOnByte 58 line)[1]? with
          | none => .panicked
          | some seg =>
            match parseUsizeAscii (trimWS seg) with
            | some n => .ok n
            | none => .panicked
        | none => .error .notFound
      else .error .invalidData

-- Concrete streams for the reader/prober theorems.
-- "Content-Length: " as bytes.
def clHdr : List Nat :=
  [67, 111, 110, 116, 101, 110, 116, 45, 76, 101, 110, 103, 116, 104, 58, 32]

theorem schedTail_mem {k : Nat} : ∀ s : List Nat, k ∈ schedTail s → k ∈ s := by
  intro s hk
  cases s with
  | nil => cases hk
  | cons a t => exact List.mem_cons_of_mem _ hk

theorem readHeadersF_sched_mem :
    ∀ (fuel : Nat) (sched content buf hdrs body0 sched' content' : List Nat),
      readHeadersF fuel sched content buf = .ok (hdrs, body0, sched', content') →
      ∀ k ∈ sched', k ∈ sched := by
  intro fuel
  induction fuel with
  | zero =>
    intro sched content buf hdrs body0 sched' content' h
    cases h
  | succ fuel ih =>
    intro sched content buf hdrs body0 sched' content' h k hk
    rw [readHeadersF] at h
    by_cases hn : min (min (schedHead sched 4096) 4096) content.length = 0
    · rw [if_pos hn] at h
      cases h
    · rw [if_neg hn] at h
      simp only at h
      rcases hft : findTerm (buf ++
          content.take (min (min (schedHead sched 4096) 4096) content.length)) with _ | p
      · rw [hft] at h
        exact schedTail_mem sched (ih _ _ _ _ _ _ _ h k hk)
      · rw [hft] at h
        cases h
        exact schedTail_mem sched hk

theorem readBodyF_length :
    ∀ (fuel : Nat) (sched content body : List Nat) (remaining : Nat),
      (∀ k ∈ sched, 1 ≤ k) → content.length < fuel →
      (readBodyF fuel sched content body remaining).length =
        body.length + min remaining content.length := by
  intro fuel
  induction fuel with
  | zero => intro sched content body remaining _ hf; omega
  | succ fuel ih =>
    intro sched content body remaining hpos hf
    rw [readBodyF]
    by_cases hr : remaining = 0
    · rw [if_pos hr]
      simp [hr]
    · rw [if_neg hr]
      cases content with
      | nil => simp
      | cons c ct =>
        have hbs : 1 ≤ min remaining 4096 := by omega
        have hsh : 1 ≤ schedHead sched (min remaining 4096) := by
          cases sched with
          | nil => simpa [schedHead] using hbs
          | cons a t => exact hpos a (List.mem_cons_self _ _)
        have hlen : (c :: ct).length = ct.length + 1 := by simp
        have hn1 : ¬ min (min (schedHead sched (min remaining 4096)) (min remaining 4096))
            (c :: ct).length = 0 := by
          rw [hlen]
          omega
        rw [if_neg hn1]
        have hpos' : ∀ k ∈ schedTail sched, 1 ≤ k := fun k hk =>
          hpos k (schedTail_mem sched hk)
        have hfl : ((c :: ct).drop (min (min (schedHead sched (min remaining 4096))
            (min remaining 4096)) (c :: ct).length)).length < fuel := by
          rw [List.length_drop, hlen]
          rw [hlen] at hf
          omega
        rw [ih _ _ _ _ hpos' hfl]
        rw [List.length_append, List.length_take, List.length_drop, hlen]
        rw [hlen] at hf
        omega

/-- C3 counterexample: a stream whose single read delivers the headers
declaring Content-Length: 1 together with 2 body bytes.  read_response
computes `remaining = len - body.len()` with an unsigned subtraction that
wraps (or panics in debug builds), and returns the 2-byte body — not a body
of length min(declared, delivered) = 1 as the claim states for every
stream. -/
theorem C3_reader_cex :
    declaredCL (clHdr ++ [49] ++ [13, 10, 13, 10]) = some 1 ∧
    read_response [] (clHdr ++ [49] ++ [13, 10, 13, 10] ++ [65, 66]) =
      .ok (clHdr ++ [49] ++ [13, 10, 13, 10], [65, 66]) ∧
    ([65, 66] : List Nat).length ≠ min 1 ([65, 66] : List Nat).length :=
  ⟨by decide, by decide, by decide⟩

/-- C3 amended: for every stream that honours zero-byte reads as
end-of-stream (every scheduled read delivers at least one byte while content
remains) whose response declares a parseable content-length, PROVIDED the
body bytes delivered alongside the headers do not exceed the declared length,
read_response returns without error a body of length
min(declared length, body bytes available before end-of-stream); in
particular a body shorter than declared followed by a clean close is returned
without error. -/
theorem C3_reader_amended (sched content hdrs body0 sched' content' : List Nat)
    (len : Nat)
    (hpos : ∀ k ∈ sched, 1 ≤ k)
    (hhd : readHeadersF (content.length + 1) sched content [] =
      .ok (hdrs, body0, sched', content'))
    (hutf : utf8Valid hdrs = true)
    (hcl : declaredCL hdrs = some len)
    (hb0 : body0.length ≤ len) :
    ∃ body, read_response sched content = .ok (hdrs, body) ∧
      body.length = min len (body0.length + content'.length) := by
  rw [declaredCL] at hcl
  rcases hfind : findCLLine (linesOf hdrs) with _ | line
  · rw [hfind] at hcl
    cases hcl
  · rw [hfind] at hcl
    simp only at hcl
    rcases hseg : (splitOnByte 58 line)[1]? with _ | seg
    · rw [hseg] at hcl
      simp only at hcl
      cases hcl
    · rw [hseg] at hcl
      simp only at hcl
      have hpos' : ∀ k ∈ sched', 1 ≤ k := fun k hk =>
        hpos k (readHeadersF_sched_mem _ _ _ _ _ _ _ _ hhd k hk)
      have hws : wrapSub len body0.length = len - body0.length := by
        rw [wrapSub, if_pos hb0]
      refine ⟨readBodyF (content'.length + 1) sched' content' body0
        (wrapSub len body0.length), ?_, ?_⟩
      · rw [read_response]
        simp only [hhd, hutf, hfind, hseg, hcl, if_true]
      · rw [hws, readBodyF_length _ _ _ _ _ hpos' (by omega)]
        omega

/-- Witness for the amended C3: Content-Length 5 but only 2 body bytes before
a clean close; the truncated 2-byte body is returned without error. -/
theorem C3_reader_amended_witness :
    (∀ k ∈ ([] : List Nat), 1 ≤ k) ∧
    readHeadersF ((clHdr ++ [53] ++ [13, 10, 13, 10] ++ [97, 98]).length + 1) []
        (clHdr ++ [53] ++ [13, 10, 13, 10] ++ [97, 98]) [] =
      Except.ok (clHdr ++ [53] ++ [13, 10, 13, 10], [97, 98], [], []) ∧
    utf8Valid (clHdr ++ [53] ++ [13, 10, 13, 10]) = true ∧
    declaredCL (clHdr ++ [53] ++ [13, 10, 13, 10]) = some 5 ∧
    ([97, 98] : List Nat).length ≤ 5 ∧
    (∃ body, read_response [] (clHdr ++ [53] ++ [13, 10, 13, 10] ++ [97, 98]) =
      .ok (clHdr ++ [53] ++ [13, 10, 13, 10], body) ∧
      body.length = min 5 (([97, 98] : List Nat).length + ([] : List Nat).length)) :=
  ⟨by simp, rfl, by decide, by decide, by decide,
   C3_reader_amended [] (clHdr ++ [53] ++ [13, 10, 13, 10] ++ [97, 98])
     (clHdr ++ [53] ++ [13, 10, 13, 10]) [97, 98] [] [] 5
     (by simp) rfl (by decide) (by decide) (by decide)⟩

/-- C4: at the failing input — a response declaring "Content-Length: abc" —
the size prober PANICS (unwrap on the failed parse) instead of failing with
the DecodeError (InvalidData) the claim prescribes; the claim's remaining
branches behave as stated: no length-bearing header gives NotFound
(ProtocolError), non-UTF-8 header bytes give InvalidData (DecodeError), and
a connection failure gives the IOError. -/
theorem C4_prober_panics_on_unparsable :
    get_content_length (some ([], clHdr ++ [97, 98, 99] ++ [13, 10, 13, 10])) =
      .panicked ∧
    (HttpRes.panicked : HttpRes Nat) ≠ .error .invalidData ∧
    get_content_length (some ([], [72, 105, 13, 10, 13, 10])) = .error .notFound ∧
    get_content_length (some ([], [255, 13, 10, 13, 10])) = .error .invalidData ∧
    get_content_length none = .error .connectFailed :=
  ⟨by decide, by decide, by decide, by decide, by decide⟩
